import Mathlib

/-!
Verification of the sleep-tracking algorithm prototype (`vanhees2015.py`).

The file shallowly embeds the two components of the source:

* the resampler `stimuli`, which trims the accelerometer stream to `t >= 0`,
  builds a uniform time grid with `linspace`, linearly interpolates the three
  axes onto it and zero-order-holds the label stream; its arithmetic is exact
  rational arithmetic, so it is embedded computably over `ℚ`, with an `Option`
  result whose `none` models the uncaught indexing errors of the source
  (empty selection, out-of-range assignment);

* the streaming classifier `vanhees2015_modified`, which smooths acceleration
  with an exponential moving average, derives an arm angle with `arctan` and
  `sqrt`, averages it over 50-sample windows and classifies sleep from a
  60-entry history of window-to-window changes; it is embedded over `ℝ`
  (the angle is transcendental) as an explicit state machine stepped once per
  ingested sample.
-/

namespace VanHees

/-! ## Resampler (`stimuli`, source lines 16-61), embedded over `ℚ` -/

/-- One raw accelerometer sample: a row `(t, ax, ay, az)` of the motion file. -/
structure AccelSample where
  t : ℚ
  ax : ℚ
  ay : ℚ
  az : ℚ
deriving DecidableEq

/-- One ground-truth label sample: a row `(t, label)` of the labels file. -/
structure LabelSample where
  t : ℚ
  label : ℚ
deriving DecidableEq

/-- One output row of `stimuli`: `(t, ax, ay, az, label)` (source line 54-59). -/
structure Row where
  t : ℚ
  ax : ℚ
  ay : ℚ
  az : ℚ
  label : ℚ
deriving DecidableEq

/-- Target sample rate in Hz (source lines 31 and 89: `fs = 10`). -/
def fs : ℕ := 10

/-- Source line 27: `accel = accel[accel[:, 0] >= 0]`. -/
def trimAccel (accel : List AccelSample) : List AccelSample :=
  accel.filter fun a => 0 ≤ a.t

/-- First timestamp `t[0]` of the trimmed stream (defaulting on `[]`, where the
source raises an `IndexError`; `stimuli` never consults the default). -/
def t0Of (acc : List AccelSample) : ℚ := (acc.headD ⟨0, 0, 0, 0⟩).t

/-- Last timestamp `t[-1]` of the trimmed stream (same defaulting remark). -/
def tLastOf (acc : List AccelSample) : ℚ := (acc.getLastD ⟨0, 0, 0, 0⟩).t

/-- Source lines 32-33: `N = int(np.floor(delta_t / (1/fs)))`. -/
def nOf (acc : List AccelSample) : ℤ :=
  Int.floor ((tLastOf acc - t0Of acc) / ((1 : ℚ) / (fs : ℚ)))

/-- `np.linspace a b n`: `n` points from `a` to `b` inclusive, so consecutive
points are `(b - a)/(n - 1)` apart (for `n = 1` numpy returns `[a]`, which the
formula also yields since division by zero is zero). -/
def linspace (a b : ℚ) (n : ℕ) : List ℚ :=
  (List.range n).map fun i : ℕ => a + (i : ℚ) * (b - a) / ((n : ℚ) - 1)

/-- Source line 34: `ti = np.linspace(t[0], t[0]+N/fs, N)`. -/
def gridOf (acc : List AccelSample) : List ℚ :=
  linspace (t0Of acc) (t0Of acc + ((nOf acc).toNat : ℚ) / (fs : ℚ)) (nOf acc).toNat

/-- `np.interp x xp fp` over the point list `pts = xp.zip fp`: clamp to the
nearest endpoint value outside the range, piecewise-linear inside
(source lines 37-39). -/
def npInterp (x : ℚ) : List (ℚ × ℚ) → ℚ
  | [] => 0
  | [p] => p.2
  | p :: q :: rest =>
    if x ≤ p.1 then p.2
    else if x ≤ q.1 then p.2 + (x - p.1) * (q.2 - p.2) / (q.1 - p.1)
    else npInterp x (q :: rest)

/-- Source line 50: `truth[truth[:, 0] < t[i]][-1][1]`, the label of the last
stream entry whose timestamp is strictly below the grid timestamp; `none`
models the `IndexError` the source raises when the selection is empty. -/
def zohOne (truth : List LabelSample) (tg : ℚ) : Option ℚ :=
  ((truth.filter fun l => l.t < tg).getLast?).map LabelSample.label

/-- The zero-order-hold lookups for the grid points after the first one
(source lines 49-50). -/
def zohList (truth : List LabelSample) : List ℚ → Option (List ℚ)
  | [] => some []
  | tg :: ts =>
    Option.bind (zohOne truth tg) fun v =>
      Option.bind (zohList truth ts) fun vs => some (v :: vs)

/-- Source lines 46-50: the first grid point takes `truth[0, 1]` unconditionally
(line 47, `none` on an empty label stream models its `IndexError`), the rest
are zero-order-hold lookups. -/
def zohLabels (truth : List LabelSample) (ts : List ℚ) : Option (List ℚ) :=
  match ts, truth with
  | [], _ => some []
  | _ :: _, [] => none
  | _ :: rest, l0 :: _ =>
    Option.bind (zohList truth rest) fun vs => some (l0.label :: vs)

/-- Source lines 54-59: assemble the `N × 5` output, one row per grid point,
interpolating each axis of the trimmed stream at the row's grid timestamp. -/
def mkRows (acc : List AccelSample) (ti labels : List ℚ) : List Row :=
  (ti.zip labels).map fun p =>
    { t := p.1
      ax := npInterp p.1 (acc.map fun a => (a.t, a.ax))
      ay := npInterp p.1 (acc.map fun a => (a.t, a.ay))
      az := npInterp p.1 (acc.map fun a => (a.t, a.az))
      label := p.2 }

/-- Source lines 16-61, the resampler: trim to `t >= 0`, build the grid,
interpolate the axes, zero-order-hold the labels. `none` models every path on
which the source raises instead of returning: an empty trimmed stream (`t[0]`
and `t[-1]` on line 32), `N = 0` (the line 47 store into an empty array) or
`N < 0` (line 34), and the empty-selection cases inside `zohLabels`. -/
def stimuli (accel : List AccelSample) (truth : List LabelSample) : Option (List Row) :=
  let acc := trimAccel accel
  if acc = [] then none
  else if nOf acc ≤ 0 then none
  else
    Option.bind (zohLabels truth (gridOf acc)) fun labels =>
      some (mkRows acc (gridOf acc) labels)

/-! Concrete inputs used by witnesses and counterexamples. -/

/-- A two-sample accelerometer stream spanning `0.2` seconds. -/
def accelA : List AccelSample := [⟨0, 0, 0, 0⟩, ⟨1/5, 0, 0, 0⟩]

/-- A single label inside the first grid interval (and after `t = 0`). -/
def truthA : List LabelSample := [⟨1/10, 3⟩]

/-- The output of `stimuli accelA truthA`: `N = 2` rows. -/
def rowsA : List Row := [⟨0, 0, 0, 0, 3⟩, ⟨1/5, 0, 0, 0, 3⟩]

example : stimuli accelA truthA = some rowsA := by with_unfolding_all decide

/-- A one-sample accelerometer stream: trimmed stream nonempty but `N = 0`. -/
def accelB : List AccelSample := [⟨0, 0, 0, 0⟩]

/-- A label stream for `accelB`. -/
def truthB : List LabelSample := [⟨0, 1⟩]

example : stimuli accelB truthB = none := by with_unfolding_all decide

/-! ## Streaming classifier (`vanhees2015_modified`, source lines 64-156),
embedded over `ℝ` -/

/-- Exponential moving average step (source lines 65-66). -/
noncomputable def ema (x y e : ℝ) : ℝ := y + e * (x - y)

/-- Exponential moving "median" step (source lines 70-71); defined in the
source but unused by the classifier. -/
noncomputable def emm (x y e : ℝ) : ℝ := y + e * Real.sign (x - y)

/-- Arm angle estimate in degrees (source lines 74-75):
`arctan(az / sqrt(ax^2 + ay^2)) * 180/pi` over a smoothed `(ax, ay, az)`. -/
noncomputable def ang (a : ℝ × ℝ × ℝ) : ℝ :=
  Real.arctan (a.2.2 / Real.sqrt (a.1 ^ 2 + a.2.1 ^ 2)) * (180 / Real.pi)

/-- The source's `ema` applied componentwise to the three axes
(source line 114: `accel_avgs = ema(stim[i, 1:4], accel_avgs, eta)`). -/
noncomputable def ema3 (x y : ℝ × ℝ × ℝ) (e : ℝ) : ℝ × ℝ × ℝ :=
  (ema x.1 y.1 e, ema x.2.1 y.2.1 e, ema x.2.2 y.2.2 e)

/-- EMA decay factor (source line 90: `eta = 0.005`). -/
noncomputable def eta : ℝ := 5 / 1000

/-- Window length in seconds (source line 93: `seconds_per_update = 5`). -/
def seconds_per_update : ℕ := 5

/-- Change-history length (source line 98: `classification_hist_size = 60`). -/
def classification_hist_size : ℕ := 60

/-- Wakeup threshold in degrees (source line 103: `arm_angle_threshold = 5`). -/
noncomputable def arm_angle_threshold : ℝ := 5

/-- The source's ring-buffer push (lines 117-118 and 139-140):
`hist[1:] = hist[:-1]; hist[0] = c` keeps the newest value at index 0 and
evicts the oldest. -/
def pushHist (h : List ℝ) (c : ℝ) : List ℝ := c :: h.dropLast

/-- The classification rule (source lines 144-147): awake (`0`) when any entry
of the change history exceeds the threshold, asleep (`1`) otherwise. -/
noncomputable def classifyHist (h : List ℝ) : ℤ :=
  if ∃ c ∈ h, c > arm_angle_threshold then 0 else 1

/-- `np.mean` of a list: sum divided by length (source line 128). -/
noncomputable def npMean (l : List ℝ) : ℝ := l.sum / l.length

/-- The zero-initialised change-history buffer (source line 99:
`arm_angle_change_hist = np.zeros(classification_hist_size)`). -/
noncomputable def initChangeHist : List ℝ := List.replicate classification_hist_size 0

/-- The change-history buffer after pushing the change sequence `cs` (oldest
first) into the zero-initialised buffer, as lines 139-140 do once per
completed window. -/
noncomputable def histAfter (cs : List ℝ) : List ℝ := cs.foldl pushHist initChangeHist

/-- One classifier input sample, a row of the `stimuli` output: the classifier
reads `stim[i, 0]` (time) and `stim[i, 1:4]` (acceleration); the label column
is never consulted. -/
structure Sample where
  t : ℝ
  ax : ℝ
  ay : ℝ
  az : ℝ

/-- The loop state of `vanhees2015_modified`: the EMA accumulator, the two
ring buffers, the previous window mean (`arm_angle_mean_d`, `none` until the
first window completes), the emitted events `ret`, and the window means the
source logs into `dbg[:, 5]`. -/
structure CState where
  accel_avgs : ℝ × ℝ × ℝ
  arm_angle_hist : List ℝ
  arm_angle_mean_d : Option ℝ
  arm_angle_change_hist : List ℝ
  events : List (ℝ × ℤ)
  means : List ℝ

/-- The smoothed acceleration after ingesting `x` (source line 114). -/
noncomputable def nextAvgs (s : CState) (x : Sample) : ℝ × ℝ × ℝ :=
  ema3 (x.ax, x.ay, x.az) s.accel_avgs eta

/-- The angle buffer after ingesting `x` (source lines 117-118): push the
angle of the new smoothed acceleration, evict the oldest entry. -/
noncomputable def nextHist (s : CState) (x : Sample) : List ℝ :=
  pushHist s.arm_angle_hist (ang (nextAvgs s x))

/-- One iteration of the source's main loop (lines 111-154) on sample `x` with
loop index `i`: smooth, push the angle, and at a window boundary
(`i % (fs*seconds_per_update) == 0`) compute the window mean, and — when a
previous mean exists — push the absolute change and emit one classified
event stamped with the sample's time. -/
noncomputable def step (i : ℕ) (x : Sample) (s : CState) : CState :=
  if i % (fs * seconds_per_update) = 0 then
    match s.arm_angle_mean_d with
    | some md =>
      { accel_avgs := nextAvgs s x
        arm_angle_hist := nextHist s x
        arm_angle_mean_d := some (npMean (nextHist s x))
        arm_angle_change_hist :=
          pushHist s.arm_angle_change_hist (|npMean (nextHist s x) - md|)
        events := s.events ++
          [(x.t, classifyHist
              (pushHist s.arm_angle_change_hist (|npMean (nextHist s x) - md|)))]
        means := s.means ++ [npMean (nextHist s x)] }
    | none =>
      { accel_avgs := nextAvgs s x
        arm_angle_hist := nextHist s x
        arm_angle_mean_d := some (npMean (nextHist s x))
        arm_angle_change_hist := s.arm_angle_change_hist
        events := s.events
        means := s.means ++ [npMean (nextHist s x)] }
  else
    { accel_avgs := nextAvgs s x
      arm_angle_hist := nextHist s x
      arm_angle_mean_d := s.arm_angle_mean_d
      arm_angle_change_hist := s.arm_angle_change_hist
      events := s.events
      means := s.means }

/-- Run the loop over the remaining samples, `j` being the loop index of the
next sample. -/
noncomputable def runFrom (j : ℕ) (s : CState) : List Sample → CState
  | [] => s
  | x :: xs => runFrom (j + 1) (step j x s) xs

/-- The state before the loop starts (source lines 88-105): zero EMA, the two
zero-filled buffers, no previous mean, and the seed event `ret = [[0, 0]]`. -/
noncomputable def init : CState :=
  { accel_avgs := (0, 0, 0)
    arm_angle_hist := List.replicate (fs * seconds_per_update) 0
    arm_angle_mean_d := none
    arm_angle_change_hist := List.replicate classification_hist_size 0
    events := [(0, 0)]
    means := [] }

/-- The classifier state after ingesting the first `n` samples of `stim`. -/
noncomputable def runPrefix (stim : List Sample) (n : ℕ) : CState :=
  runFrom 0 init (stim.take n)

/-- Source lines 78-156: the full classifier run, returning the emitted event
list `ret` and the logged window means (`dbg[:, 5]`). -/
noncomputable def vanhees2015_modified (stim : List Sample) : List (ℝ × ℤ) × List ℝ :=
  ((runFrom 0 init stim).events, (runFrom 0 init stim).means)

/-! ## Basic run lemmas -/

theorem runFrom_append (xs ys : List Sample) :
    ∀ (j : ℕ) (s : CState),
      runFrom j s (xs ++ ys) = runFrom (j + xs.length) (runFrom j s xs) ys := by
  induction xs with
  | nil => intro j s; simp [runFrom]
  | cons x xs ih =>
    intro j s
    have h : j + (x :: xs).length = (j + 1) + xs.length := by
      simp [List.length_cons]; omega
    simp only [List.cons_append, runFrom, h]
    exact ih (j + 1) (step j x s)

theorem step_events_extend (j : ℕ) (x : Sample) (s : CState) :
    ∃ es, (step j x s).events = s.events ++ es := by
  unfold step
  by_cases hb : j % (fs * seconds_per_update) = 0
  · cases hm : s.arm_angle_mean_d with
    | none => exact ⟨[], by simp [hb, hm]⟩
    | some md =>
      exact ⟨[(x.t, classifyHist
        (pushHist s.arm_angle_change_hist (|npMean (nextHist s x) - md|)))],
        by simp [hb, hm]⟩
  · exact ⟨[], by simp [hb]⟩

theorem runFrom_events_extend (xs : List Sample) :
    ∀ (j : ℕ) (s : CState), ∃ es, (runFrom j s xs).events = s.events ++ es := by
  induction xs with
  | nil => intro j s; exact ⟨[], by simp [runFrom]⟩
  | cons x xs ih =>
    intro j s
    obtain ⟨es, hes⟩ := ih (j + 1) (step j x s)
    obtain ⟨e0, he0⟩ := step_events_extend j x s
    exact ⟨e0 ++ es, by simp [runFrom, hes, he0]⟩

theorem step_prev_some (j : ℕ) (x : Sample) (s : CState) (m : ℝ)
    (h : s.arm_angle_mean_d = some m) :
    ∃ m2, (step j x s).arm_angle_mean_d = some m2 := by
  unfold step
  by_cases hb : j % (fs * seconds_per_update) = 0
  · exact ⟨npMean (nextHist s x), by simp [hb, h]⟩
  · exact ⟨m, by simp [hb, h]⟩

theorem runFrom_prev_some (xs : List Sample) :
    ∀ (j : ℕ) (s : CState) (m : ℝ), s.arm_angle_mean_d = some m →
      ∃ m2, (runFrom j s xs).arm_angle_mean_d = some m2 := by
  induction xs with
  | nil => intro j s m h; exact ⟨m, by simpa [runFrom] using h⟩
  | cons x xs ih =>
    intro j s m h
    obtain ⟨m1, hm1⟩ := step_prev_some j x s m h
    exact (ih (j + 1) (step j x s) m1 hm1).imp fun m2 h2 => by simpa [runFrom] using h2

theorem step_hist_length (j : ℕ) (x : Sample) (s : CState)
    (h : s.arm_angle_hist.length = fs * seconds_per_update) :
    (step j x s).arm_angle_hist.length = fs * seconds_per_update := by
  have hpos : 0 < fs * seconds_per_update := by decide
  have hn : (nextHist s x).length = fs * seconds_per_update := by
    simp only [nextHist, pushHist, List.length_cons, List.length_dropLast, h]
    omega
  unfold step
  by_cases hb : j % (fs * seconds_per_update) = 0
  · cases hm : s.arm_angle_mean_d <;> simp [hb, hm, hn]
  · simp [hb, hn]

theorem runFrom_hist_length (xs : List Sample) :
    ∀ (j : ℕ) (s : CState), s.arm_angle_hist.length = fs * seconds_per_update →
      (runFrom j s xs).arm_angle_hist.length = fs * seconds_per_update := by
  induction xs with
  | nil => intro j s h; simpa [runFrom] using h
  | cons x xs ih =>
    intro j s h
    simpa [runFrom] using ih (j + 1) (step j x s) (step_hist_length j x s h)

theorem runPrefix_hist_length (stim : List Sample) (n : ℕ) :
    (runPrefix stim n).arm_angle_hist.length = fs * seconds_per_update :=
  runFrom_hist_length _ _ _ (by simp [init])

theorem runPrefix_succ (stim : List Sample) (i : ℕ) (hi : i < stim.length) :
    runPrefix stim (i + 1) = step i (stim.get ⟨i, hi⟩) (runPrefix stim i) := by
  have ht : stim.take (i + 1) = stim.take i ++ [stim.get ⟨i, hi⟩] := by
    rw [List.take_succ, List.getElem?_eq_getElem hi]
    simp [List.get_eq_getElem]
  have hl : (stim.take i).length = i := by
    simp [List.length_take, Nat.min_eq_left hi.le]
  unfold runPrefix
  rw [ht, runFrom_append, hl]
  simp [runFrom]

theorem runPrefix_prev_some (stim : List Sample) (i : ℕ) (h1 : 1 ≤ i)
    (h2 : i ≤ stim.length) :
    ∃ m, (runPrefix stim i).arm_angle_mean_d = some m := by
  obtain ⟨i', rfl⟩ : ∃ i', i = i' + 1 := ⟨i - 1, by omega⟩
  cases stim with
  | nil => simp at h2
  | cons x xs =>
    have ht : (x :: xs).take (i' + 1) = x :: xs.take i' := List.take_succ_cons
    unfold runPrefix
    rw [ht]
    have hs : ∃ m0, (step 0 x init).arm_angle_mean_d = some m0 := by
      unfold step
      have hb : 0 % (fs * seconds_per_update) = 0 := Nat.zero_mod _
      exact ⟨npMean (nextHist init x), by simp [hb, init]⟩
    obtain ⟨m0, hm0⟩ := hs
    simpa [runFrom] using runFrom_prev_some (xs.take i') 1 (step 0 x init) m0 hm0

/-! ## Change-history buffer lemmas -/

theorem pushHist_foldl (es : List ℝ) :
    ∀ h : List ℝ, es.length ≤ h.length →
      es.foldl pushHist h = es.reverse ++ h.take (h.length - es.length) := by
  induction es with
  | nil => intro h _; simp
  | cons e es ih =>
    intro h hle
    rw [List.length_cons] at hle
    have hlen : (pushHist h e).length = h.length := by
      simp only [pushHist, List.length_cons, List.length_dropLast]; omega
    have hle2 : es.length ≤ (pushHist h e).length := by omega
    have hfold : (e :: es).foldl pushHist h = es.foldl pushHist (pushHist h e) := rfl
    rw [hfold, ih (pushHist h e) hle2, hlen]
    obtain ⟨k, hk⟩ : ∃ k, h.length - es.length = k + 1 :=
      ⟨h.length - es.length - 1, by omega⟩
    rw [hk]
    have hdk : h.dropLast.take k = h.take k := by
      rw [List.dropLast_eq_take, List.take_take]
      have : min k (h.length - 1) = k := by omega
      rw [this]
    have hk2 : h.length - (es.length + 1) = k := by omega
    simp only [pushHist, List.take_succ_cons, hdk, List.length_cons, hk2,
      List.reverse_cons, List.append_assoc, List.singleton_append]

theorem foldl_pushHist_length (cs : List ℝ) :
    ∀ h : List ℝ, 0 < h.length → (cs.foldl pushHist h).length = h.length := by
  induction cs with
  | nil => intro h _; rfl
  | cons c cs ih =>
    intro h hpos
    have hlen : (pushHist h c).length = h.length := by
      simp only [pushHist, List.length_cons, List.length_dropLast]; omega
    have := ih (pushHist h c) (by omega)
    simpa [hlen] using this

theorem histAfter_length (cs : List ℝ) :
    (histAfter cs).length = classification_hist_size := by
  have h0 : (initChangeHist : List ℝ).length = classification_hist_size := by
    simp [initChangeHist]
  have hpos : 0 < (initChangeHist : List ℝ).length := by
    rw [h0]; decide
  simpa [histAfter, h0] using foldl_pushHist_length cs initChangeHist hpos

theorem histAfter_append (cs ds : List ℝ) :
    histAfter (cs ++ ds) = ds.foldl pushHist (histAfter cs) := by
  simp [histAfter, List.foldl_append]

/-! ## A concrete classifier input stream and its closed-form run -/

/-- The constant sample `(t, ax, ay, az) = (0, 1, 0, 1)`: its smoothed
acceleration stays of the shape `(b, 0, b)` with `b > 0`, whose arm angle is
exactly 45 degrees. -/
noncomputable def s1 : Sample := ⟨0, 1, 0, 1⟩

theorem dropLast_replicate_real (n : ℕ) (a : ℝ) :
    (List.replicate (n + 1) a).dropLast = List.replicate n a := by
  rw [List.replicate_succ' n a, List.dropLast_concat]

theorem ang_diag (b : ℝ) (hb : 0 < b) : ang (b, 0, b) = 45 := by
  have hs : Real.sqrt (b ^ 2 + 0 ^ 2) = b := by
    rw [show b ^ 2 + (0:ℝ) ^ 2 = b ^ 2 by ring, Real.sqrt_sq hb.le]
  unfold ang
  simp only [hs]
  rw [div_self hb.ne', Real.arctan_one]
  have hpi := Real.pi_ne_zero
  field_simp
  ring

theorem run_s1 (n : ℕ) (h1 : 1 ≤ n) (h2 : n ≤ 50) :
    ∃ b : ℝ, 0 < b ∧ b ≤ 1 ∧
      runFrom 0 init (List.replicate n s1) =
        { accel_avgs := (b, 0, b)
          arm_angle_hist := List.replicate n 45 ++ List.replicate (50 - n) 0
          arm_angle_mean_d := some (9/10)
          arm_angle_change_hist := List.replicate 60 0
          events := [(0, 0)]
          means := [9/10] } := by
  induction n with
  | zero => omega
  | succ n ih =>
    by_cases hn : n = 0
    · subst hn
      refine ⟨1/200, by norm_num, by norm_num, ?_⟩
      have hav : nextAvgs init s1 = (1/200, 0, 1/200) := by
        simp only [nextAvgs, init, s1, ema3, ema, eta]
        norm_num
      have hang : ang (nextAvgs init s1) = 45 := by
        rw [hav]; exact ang_diag (1/200) (by norm_num)
      have hh : nextHist init s1 = 45 :: List.replicate 49 0 := by
        unfold nextHist
        rw [hang]
        simp only [pushHist]
        rw [show (init : CState).arm_angle_hist = List.replicate (49 + 1) (0:ℝ) from rfl,
          dropLast_replicate_real]
      have hm : npMean (45 :: List.replicate 49 (0:ℝ)) = 9/10 := by
        simp [npMean, List.sum_replicate]
        norm_num
      have hrun : runFrom 0 init (List.replicate 1 s1) = step 0 s1 init := by
        simp [runFrom]
      rw [hrun]
      show CState.mk (nextAvgs init s1) (nextHist init s1)
          (some (npMean (nextHist init s1))) init.arm_angle_change_hist init.events
          (init.means ++ [npMean (nextHist init s1)]) = _
      rw [hav, hh, hm]
      simp [init, classification_hist_size, List.replicate_one]
    · obtain ⟨b, hb0, hb1, hst⟩ := ih (by omega) (by omega)
      have hb0' : (0:ℝ) < b + 5/1000 * (1 - b) := by
        have hnn : (0:ℝ) ≤ 5/1000 * (1 - b) := mul_nonneg (by norm_num) (by linarith)
        linarith
      have hb1' : b + 5/1000 * (1 - b) ≤ 1 := by
        nlinarith [mul_nonneg (show (0:ℝ) ≤ 995/1000 by norm_num)
          (show (0:ℝ) ≤ 1 - b by linarith)]
      refine ⟨b + 5/1000 * (1 - b), hb0', hb1', ?_⟩
      have hnb : ¬ (n % (fs * seconds_per_update) = 0) := by
        rw [show fs * seconds_per_update = 50 from rfl]
        omega
      rw [List.replicate_succ' n s1, runFrom_append, hst]
      simp only [List.length_replicate, Nat.zero_add]
      set ST : CState :=
        { accel_avgs := (b, 0, b)
          arm_angle_hist := List.replicate n 45 ++ List.replicate (50 - n) 0
          arm_angle_mean_d := some (9/10)
          arm_angle_change_hist := List.replicate 60 0
          events := [(0, 0)]
          means := [9/10] } with hST
      have hrun2 : runFrom n ST [s1] = step n s1 ST := rfl
      rw [hrun2]
      have hav2 : nextAvgs ST s1 =
          (b + 5/1000 * (1 - b), 0, b + 5/1000 * (1 - b)) := by
        simp only [nextAvgs, hST, s1, ema3, ema, eta]
        norm_num
      have hang2 : ang (nextAvgs ST s1) = 45 := by
        rw [hav2]; exact ang_diag _ hb0'
      have hdl : (List.replicate n (45:ℝ) ++ List.replicate (50 - n) 0).dropLast
          = List.replicate n 45 ++ List.replicate (49 - n) 0 := by
        obtain ⟨m, hm5⟩ : ∃ m, 50 - n = m + 1 := ⟨49 - n, by omega⟩
        have hm6 : 49 - n = m := by omega
        rw [hm5, List.replicate_succ' m (0:ℝ), ← List.append_assoc,
          List.dropLast_concat, hm6]
      have hh2 : nextHist ST s1 =
          45 :: (List.replicate n 45 ++ List.replicate (49 - n) 0) := by
        simp only [nextHist, pushHist, hang2, hST, hdl]
      unfold step
      rw [if_neg hnb]
      rw [hav2, hh2]
      have h49 : 50 - (n + 1) = 49 - n := by omega
      simp [hST, h49, List.replicate_succ]

/-! ## Claim theorems: classifier -/

/-- C1: at every window boundary at which `arm_angle_mean_d` is already set,
the classifier computes `change = |window_mean - prev_window_mean|`, pushes it
into the change history, and emits exactly one event, stamped with the current
sample's timestamp, whose state is 0 (awake) when any entry of the updated
change history exceeds `arm_angle_threshold` and 1 (asleep) otherwise
(`classifyHist` is literally that rule). -/
theorem c1_boundary_event (stim : List Sample) (i : ℕ) (hi : i < stim.length)
    (md : ℝ) (hb : i % (fs * seconds_per_update) = 0)
    (hprev : (runPrefix stim i).arm_angle_mean_d = some md) :
    (runPrefix stim (i + 1)).events
      = (runPrefix stim i).events ++
        [((stim.get ⟨i, hi⟩).t,
          classifyHist (pushHist (runPrefix stim i).arm_angle_change_hist
            (|npMean (nextHist (runPrefix stim i) (stim.get ⟨i, hi⟩)) - md|)))] ∧
    (runPrefix stim (i + 1)).arm_angle_change_hist
      = pushHist (runPrefix stim i).arm_angle_change_hist
          (|npMean (nextHist (runPrefix stim i) (stim.get ⟨i, hi⟩)) - md|) := by
  rw [runPrefix_succ stim i hi]
  unfold step
  rw [if_pos hb, hprev]
  exact ⟨rfl, rfl⟩

/-- C1 witness: the 51st sample of a constant stream is a window boundary with
a previous window mean in place; it appends exactly the described event. -/
theorem c1_boundary_event_witness :
    50 % (fs * seconds_per_update) = 0 ∧
    (runPrefix (List.replicate 51 s1) 50).arm_angle_mean_d = some (9/10) ∧
    ((runPrefix (List.replicate 51 s1) 51).events
      = (runPrefix (List.replicate 51 s1) 50).events ++
        [(s1.t,
          classifyHist (pushHist (runPrefix (List.replicate 51 s1) 50).arm_angle_change_hist
            (|npMean (nextHist (runPrefix (List.replicate 51 s1) 50) s1) - 9/10|)))] ∧
     (runPrefix (List.replicate 51 s1) 51).arm_angle_change_hist
      = pushHist (runPrefix (List.replicate 51 s1) 50).arm_angle_change_hist
          (|npMean (nextHist (runPrefix (List.replicate 51 s1) 50) s1) - 9/10|)) := by
  have hprev : (runPrefix (List.replicate 51 s1) 50).arm_angle_mean_d = some (9/10) := by
    unfold runPrefix
    rw [List.take_replicate, show min 50 51 = 50 from rfl]
    obtain ⟨b, _, _, hst⟩ := run_s1 50 (by norm_num) (by norm_num)
    rw [hst]
  exact ⟨by decide, hprev,
    c1_boundary_event (List.replicate 51 s1) 50 (by simp) (9/10) (by decide) hprev⟩

/-- C3: one event is appended at every window boundary other than the very
first sample; no event is appended on a non-boundary call; sample index 0 is a
boundary but only seeds, leaving the seed event list `[(0, 0)]` unchanged. -/
theorem c3_cadence (stim : List Sample) (i : ℕ) (hi : i < stim.length) :
    (i % (fs * seconds_per_update) = 0 → i ≠ 0 →
      ∃ st : ℤ, (runPrefix stim (i + 1)).events
        = (runPrefix stim i).events ++ [((stim.get ⟨i, hi⟩).t, st)]) ∧
    (i % (fs * seconds_per_update) ≠ 0 →
      (runPrefix stim (i + 1)).events = (runPrefix stim i).events) ∧
    (runPrefix stim 0).events = [(0, 0)] ∧
    (i = 0 → (runPrefix stim 1).events = [(0, 0)]) := by
  refine ⟨?_, ?_, rfl, ?_⟩
  · intro hb hne
    obtain ⟨md, hmd⟩ := runPrefix_prev_some stim i (by omega) hi.le
    rw [runPrefix_succ stim i hi]
    unfold step
    rw [if_pos hb, hmd]
    exact ⟨_, rfl⟩
  · intro hb
    rw [runPrefix_succ stim i hi]
    unfold step
    rw [if_neg hb]
  · intro h0
    subst h0
    cases stim with
    | nil => simp at hi
    | cons x xs =>
      have h1 : runPrefix (x :: xs) 1 = step 0 x init := by
        unfold runPrefix
        simp [runFrom]
      rw [h1]
      unfold step
      rw [if_pos (Nat.zero_mod _)]
      rfl

/-- C3 witness: at sample index 50 of a 51-sample stream exactly one event is
appended. -/
theorem c3_cadence_witness :
    50 < (List.replicate 51 s1).length ∧
    ∃ st : ℤ, (runPrefix (List.replicate 51 s1) 51).events
      = (runPrefix (List.replicate 51 s1) 50).events ++ [(s1.t, st)] :=
  ⟨by simp, (c3_cadence (List.replicate 51 s1) 50 (by simp)).1 (by decide) (by decide)⟩

/-- C2: hysteresis over the change-history buffer (source lines 97-99 and
139-147, the code the machine's `step` invokes verbatim): once a change above
the threshold is pushed, the classification is awake (0) at that push and for
the following `classification_hist_size - 1` pushes whatever they are, i.e.
for every strictly shorter suffix; and any `classification_hist_size`
consecutive below-threshold pushes make the classification asleep (1), so
exactly that many stable windows are needed after the spike. -/
theorem c2_hysteresis (cs post : List ℝ) (c : ℝ) :
    (c > arm_angle_threshold → ∀ post' : List ℝ,
      post'.length < classification_hist_size →
      classifyHist (histAfter (cs ++ c :: post')) = 0) ∧
    (post.length = classification_hist_size →
      (∀ x ∈ post, x < arm_angle_threshold) →
      classifyHist (histAfter (cs ++ post)) = 1) := by
  have hsize : 0 < classification_hist_size := by decide
  constructor
  · intro hc post' hlen
    have hsplit : cs ++ c :: post' = (cs ++ [c]) ++ post' := by simp
    rw [hsplit, histAfter_append]
    have hbase : histAfter (cs ++ [c]) = pushHist (histAfter cs) c := by
      rw [histAfter_append]; rfl
    rw [hbase]
    have hlen0 : (histAfter cs).length = classification_hist_size := histAfter_length cs
    have hlen1 : (pushHist (histAfter cs) c).length = classification_hist_size := by
      simp only [pushHist, List.length_cons, List.length_dropLast, hlen0]
      omega
    rw [pushHist_foldl post' (pushHist (histAfter cs) c) (by omega)]
    have hmem : c ∈ post'.reverse ++ (pushHist (histAfter cs) c).take
        ((pushHist (histAfter cs) c).length - post'.length) := by
      apply List.mem_append_right
      obtain ⟨k, hk⟩ : ∃ k, (pushHist (histAfter cs) c).length - post'.length = k + 1 :=
        ⟨(pushHist (histAfter cs) c).length - post'.length - 1, by omega⟩
      rw [hk]
      simp [pushHist, List.take_succ_cons]
    unfold classifyHist
    rw [if_pos ⟨c, hmem, hc⟩]
  · intro hlen hall
    rw [histAfter_append]
    rw [pushHist_foldl post (histAfter cs) (by rw [histAfter_length]; omega)]
    rw [histAfter_length, hlen, Nat.sub_self, List.take_zero, List.append_nil]
    have hno : ¬ ∃ x ∈ post.reverse, x > arm_angle_threshold := by
      rintro ⟨x, hx, hgt⟩
      exact absurd hgt (not_lt.mpr (hall x (List.mem_reverse.mp hx)).le)
    unfold classifyHist
    rw [if_neg hno]

/-- C2 witness: pushing the change `6 > 5` classifies awake; sixty consecutive
below-threshold changes classify asleep. -/
theorem c2_hysteresis_witness :
    (6 : ℝ) > arm_angle_threshold ∧
    (List.replicate 60 (0:ℝ)).length = classification_hist_size ∧
    (∀ x ∈ List.replicate 60 (0:ℝ), x < arm_angle_threshold) ∧
    ([] : List ℝ).length < classification_hist_size ∧
    classifyHist (histAfter ([] ++ (6:ℝ) :: [])) = 0 ∧
    classifyHist (histAfter ([] ++ List.replicate 60 (0:ℝ))) = 1 := by
  have h6 : (6 : ℝ) > arm_angle_threshold := by norm_num [arm_angle_threshold]
  have hlen : (List.replicate 60 (0:ℝ)).length = classification_hist_size := by
    simp [classification_hist_size]
  have hall : ∀ x ∈ List.replicate 60 (0:ℝ), x < arm_angle_threshold := by
    intro x hx
    rw [List.eq_of_mem_replicate hx]
    norm_num [arm_angle_threshold]
  have hemp : ([] : List ℝ).length < classification_hist_size := by
    norm_num [classification_hist_size]
  exact ⟨h6, hlen, hall, hemp,
    (c2_hysteresis [] (List.replicate 60 0) 6).1 h6 [] hemp,
    (c2_hysteresis [] (List.replicate 60 0) 6).2 hlen hall⟩

/-- C4 (amended): at every window boundary the recorded window mean is
`npMean` of the full angle buffer — the sum of all `fs * seconds_per_update`
slots divided by that fixed length — including the zero-initialised slots that
no sample has filled yet, not the mean over only the pushed entries. -/
theorem c4_mean_whole_buffer (stim : List Sample) (i : ℕ) (hi : i < stim.length)
    (hb : i % (fs * seconds_per_update) = 0) :
    (runPrefix stim (i + 1)).means
      = (runPrefix stim i).means ++
        [npMean (nextHist (runPrefix stim i) (stim.get ⟨i, hi⟩))] ∧
    (nextHist (runPrefix stim i) (stim.get ⟨i, hi⟩)).length = fs * seconds_per_update := by
  constructor
  · rw [runPrefix_succ stim i hi]
    unfold step
    rw [if_pos hb]
    cases hmd : (runPrefix stim i).arm_angle_mean_d with
    | none => rfl
    | some md => rfl
  · have hl := runPrefix_hist_length stim i
    have hpos : 0 < fs * seconds_per_update := by decide
    simp only [nextHist, pushHist, List.length_cons, List.length_dropLast, hl]
    omega

/-- C4 witness: the first sample completes the first window. -/
theorem c4_mean_whole_buffer_witness :
    0 < ([s1] : List Sample).length ∧
    0 % (fs * seconds_per_update) = 0 ∧
    ((runPrefix [s1] 1).means
      = (runPrefix [s1] 0).means ++ [npMean (nextHist (runPrefix [s1] 0) s1)] ∧
     (nextHist (runPrefix [s1] 0) s1).length = fs * seconds_per_update) :=
  ⟨by simp, by decide, c4_mean_whole_buffer [s1] 0 (by simp) (by decide)⟩

/-- C4 counterexample: after the single sample `s1` the one pushed angle is
exactly 45 degrees, whose mean over the pushed entries would be 45, yet the
recorded window mean is `45/50 = 9/10`, because the 49 zero-initialised
buffer slots enter the average. -/
theorem c4_counterexample :
    (runFrom 0 init [s1]).means = [(9/10 : ℝ)] ∧
    ang (nextAvgs init s1) = 45 ∧
    npMean [(45 : ℝ)] = 45 ∧
    (9/10 : ℝ) ≠ 45 := by
  refine ⟨?_, ?_, ?_, by norm_num⟩
  · obtain ⟨b, _, _, hst⟩ := run_s1 1 (by norm_num) (by norm_num)
    show (runFrom 0 init (List.replicate 1 s1)).means = [(9/10 : ℝ)]
    rw [hst]
  · have hav : nextAvgs init s1 = (1/200, 0, 1/200) := by
      simp only [nextAvgs, init, s1, ema3, ema, eta]
      norm_num
    rw [hav]
    exact ang_diag _ (by norm_num)
  · simp [npMean]

/-- C9: the first element of the emitted event sequence is the seed
`(t, state) = (0, 0)` for every input stream. -/
theorem c9_seed_event (stim : List Sample) :
    (vanhees2015_modified stim).1.head? = some (0, 0) := by
  obtain ⟨es, hes⟩ := runFrom_events_extend stim 0 init
  unfold vanhees2015_modified
  rw [hes]
  rfl

/-- The arm-angle computation of source lines 74-75 as a total embedding with
an explicit error branch: `none` when the divisor `sqrt(ax^2 + ay^2)` is zero
(where the unguarded source division would produce an IEEE infinity or NaN),
`some` of the angle in degrees otherwise. -/
noncomputable def angChecked (a : ℝ × ℝ × ℝ) : Option ℝ :=
  if Real.sqrt (a.1 ^ 2 + a.2.1 ^ 2) = 0 then none
  else some (Real.arctan (a.2.2 / Real.sqrt (a.1 ^ 2 + a.2.1 ^ 2)) * (180 / Real.pi))

/-- C10: the divisor `sqrt(ax^2 + ay^2)` is unguarded, and a stream whose
samples all have `ax = ay = 0` drives the smoothed acceleration to a state
with `ax = ay = 0` reachable from the ingest interface, where the total
embedding's error branch fires; under the precondition that the smoothed
`(ax, ay)` is not `(0, 0)` the division is safe and the angle lies strictly
between -90 and 90 degrees. -/
theorem c10_division_guard :
    ((runFrom 0 init [⟨0, 0, 0, 1⟩]).accel_avgs.1 = 0 ∧
     (runFrom 0 init [⟨0, 0, 0, 1⟩]).accel_avgs.2.1 = 0 ∧
     angChecked (runFrom 0 init [⟨0, 0, 0, 1⟩]).accel_avgs = none) ∧
    (∀ a : ℝ × ℝ × ℝ, ¬(a.1 = 0 ∧ a.2.1 = 0) →
      ∃ θ, angChecked a = some θ ∧ -90 < θ ∧ θ < 90) := by
  constructor
  · have hav : (runFrom 0 init [(⟨0, 0, 0, 1⟩ : Sample)]).accel_avgs = (0, 0, 1/200) := by
      have h1 : runFrom 0 init [(⟨0, 0, 0, 1⟩ : Sample)] = step 0 ⟨0, 0, 0, 1⟩ init := by
        simp [runFrom]
      rw [h1]
      have h2 : (step 0 (⟨0, 0, 0, 1⟩ : Sample) init).accel_avgs
          = nextAvgs init ⟨0, 0, 0, 1⟩ := by
        unfold step
        rw [if_pos (Nat.zero_mod _)]
        rfl
      rw [h2]
      simp only [nextAvgs, init, ema3, ema, eta]
      norm_num
    refine ⟨by rw [hav], by rw [hav], ?_⟩
    rw [hav]
    have hc : Real.sqrt (((0:ℝ), (0:ℝ), (1/200:ℝ)).1 ^ 2 + ((0:ℝ), (0:ℝ), (1/200:ℝ)).2.1 ^ 2) = 0 := by
      norm_num
    unfold angChecked
    rw [if_pos hc]
  · intro a ha
    have hπ : Real.pi ≠ 0 := Real.pi_ne_zero
    have hsum : 0 < a.1 ^ 2 + a.2.1 ^ 2 := by
      rcases not_and_or.mp ha with h | h
      · have h1 : 0 < a.1 ^ 2 := lt_of_le_of_ne (sq_nonneg _) (Ne.symm (pow_ne_zero 2 h))
        nlinarith [sq_nonneg a.2.1]
      · have h1 : 0 < a.2.1 ^ 2 := lt_of_le_of_ne (sq_nonneg _) (Ne.symm (pow_ne_zero 2 h))
        nlinarith [sq_nonneg a.1]
    have hsq : 0 < Real.sqrt (a.1 ^ 2 + a.2.1 ^ 2) := Real.sqrt_pos.mpr hsum
    refine ⟨Real.arctan (a.2.2 / Real.sqrt (a.1 ^ 2 + a.2.1 ^ 2)) * (180 / Real.pi),
      ?_, ?_, ?_⟩
    · unfold angChecked
      rw [if_neg hsq.ne']
    · have harc := Real.neg_pi_div_two_lt_arctan (a.2.2 / Real.sqrt (a.1 ^ 2 + a.2.1 ^ 2))
      have hpos : (0:ℝ) < 180 / Real.pi := by positivity
      have key : -(Real.pi / 2) * (180 / Real.pi) = -90 := by
        field_simp
        ring
      calc (-90 : ℝ) = -(Real.pi / 2) * (180 / Real.pi) := key.symm
        _ < _ := mul_lt_mul_of_pos_right harc hpos
    · have harc := Real.arctan_lt_pi_div_two (a.2.2 / Real.sqrt (a.1 ^ 2 + a.2.1 ^ 2))
      have hpos : (0:ℝ) < 180 / Real.pi := by positivity
      have key : (Real.pi / 2) * (180 / Real.pi) = 90 := by
        field_simp
        ring
      calc Real.arctan (a.2.2 / Real.sqrt (a.1 ^ 2 + a.2.1 ^ 2)) * (180 / Real.pi)
          < (Real.pi / 2) * (180 / Real.pi) := mul_lt_mul_of_pos_right harc hpos
        _ = 90 := key

/-- C10 witness: a smoothed acceleration with `ax = 1 ≠ 0` is safe, with the
angle strictly inside (-90, 90). -/
theorem c10_division_guard_witness :
    ¬((1:ℝ) = 0 ∧ (0:ℝ) = 0) ∧
    ∃ θ, angChecked (1, 0, 0) = some θ ∧ -90 < θ ∧ θ < 90 :=
  ⟨by norm_num, c10_division_guard.2 (1, 0, 0) (by norm_num)⟩

/-! ## Resampler lemmas -/

theorem stimuli_inv (accel : List AccelSample) (truth : List LabelSample)
    (rows : List Row) (h : stimuli accel truth = some rows) :
    trimAccel accel ≠ [] ∧ 0 < nOf (trimAccel accel) ∧
    ∃ labels, zohLabels truth (gridOf (trimAccel accel)) = some labels ∧
      rows = mkRows (trimAccel accel) (gridOf (trimAccel accel)) labels := by
  unfold stimuli at h
  by_cases h1 : trimAccel accel = []
  · rw [if_pos h1] at h
    exact absurd h (by simp)
  · rw [if_neg h1] at h
    by_cases h2 : nOf (trimAccel accel) ≤ 0
    · rw [if_pos h2] at h
      exact absurd h (by simp)
    · rw [if_neg h2] at h
      cases hz : zohLabels truth (gridOf (trimAccel accel)) with
      | none => rw [hz] at h; simp at h
      | some labels =>
        rw [hz] at h
        simp at h
        exact ⟨h1, by omega, labels, rfl, h.symm⟩

theorem linspace_length (a b : ℚ) (n : ℕ) : (linspace a b n).length = n := by
  unfold linspace
  rw [List.length_map, List.length_range]

theorem linspace_get (a b : ℚ) (n : ℕ) (i : ℕ) (hi : i < (linspace a b n).length) :
    (linspace a b n).get ⟨i, hi⟩ = a + i * (b - a) / ((n : ℚ) - 1) := by
  simp only [linspace, List.get_eq_getElem, List.getElem_map, List.getElem_range]

theorem zohList_length (truth : List LabelSample) :
    ∀ (ts : List ℚ) (vs : List ℚ), zohList truth ts = some vs →
      vs.length = ts.length := by
  intro ts
  induction ts with
  | nil =>
    intro vs h
    simp only [zohList, Option.some.injEq] at h
    simp [← h]
  | cons tg ts ih =>
    intro vs h
    simp only [zohList] at h
    cases hz : zohOne truth tg with
    | none => rw [hz] at h; simp at h
    | some v =>
      rw [hz] at h
      cases hzs : zohList truth ts with
      | none => rw [hzs] at h; simp at h
      | some vs0 =>
        rw [hzs] at h
        simp at h
        rw [← h]
        simp [ih vs0 hzs]

theorem zohLabels_length (truth : List LabelSample) (ts ls : List ℚ)
    (h : zohLabels truth ts = some ls) : ls.length = ts.length := by
  cases ts with
  | nil =>
    simp only [zohLabels, Option.some.injEq] at h
    simp [← h]
  | cons tg rest =>
    cases truth with
    | nil => simp [zohLabels] at h
    | cons l0 lt =>
      simp only [zohLabels] at h
      cases hz : zohList (l0 :: lt) rest with
      | none => rw [hz] at h; simp at h
      | some vs =>
        rw [hz] at h
        simp at h
        rw [← h]
        simp [zohList_length _ rest vs hz]

theorem mkRows_length (acc : List AccelSample) (ti labels : List ℚ) :
    (mkRows acc ti labels).length = min ti.length labels.length := by
  simp [mkRows]

theorem mkRows_get_t (acc : List AccelSample) (ti labels : List ℚ)
    (i : ℕ) (hi : i < (mkRows acc ti labels).length) (hti : i < ti.length)
    (_hla : i < labels.length) :
    ((mkRows acc ti labels).get ⟨i, hi⟩).t = ti.get ⟨i, hti⟩ := by
  simp [mkRows, List.get_eq_getElem]

theorem mkRows_get_label (acc : List AccelSample) (ti labels : List ℚ)
    (i : ℕ) (hi : i < (mkRows acc ti labels).length) (_hti : i < ti.length)
    (hla : i < labels.length) :
    ((mkRows acc ti labels).get ⟨i, hi⟩).label = labels.get ⟨i, hla⟩ := by
  simp [mkRows, List.get_eq_getElem]

theorem mem_of_getLast?_eq {α : Type} {l : List α} {a : α}
    (h : l.getLast? = some a) : a ∈ l := by
  induction l with
  | nil => simp at h
  | cons x xs ih =>
    cases xs with
    | nil =>
      rw [List.getLast?_singleton] at h
      simp at h
      simp [h]
    | cons y ys =>
      rw [List.getLast?_cons_cons] at h
      exact List.mem_cons_of_mem x (ih h)

theorem pairwise_le_getLast :
    ∀ (l : List LabelSample), List.Pairwise (fun x y => x.t ≤ y.t) l →
      ∀ a, l.getLast? = some a → ∀ b ∈ l, b.t ≤ a.t := by
  intro l
  induction l with
  | nil => intro _ a h; simp at h
  | cons x xs ih =>
    intro hp a h b hb
    cases xs with
    | nil =>
      rw [List.getLast?_singleton] at h
      simp at h
      have hbx : b = x := by simpa using hb
      simp [← h, hbx]
    | cons y ys =>
      rw [List.getLast?_cons_cons] at h
      rcases List.mem_cons.mp hb with rfl | hb2
      · exact (List.pairwise_cons.mp hp).1 a (mem_of_getLast?_eq h)
      · exact ih (List.pairwise_cons.mp hp).2 a h b hb2

theorem zohList_get (truth : List LabelSample) :
    ∀ (ts : List ℚ) (vs : List ℚ), zohList truth ts = some vs →
      ∀ (j : ℕ) (hj : j < ts.length) (hj2 : j < vs.length),
        zohOne truth (ts.get ⟨j, hj⟩) = some (vs.get ⟨j, hj2⟩) := by
  intro ts
  induction ts with
  | nil => intro vs h j hj; simp at hj
  | cons tg ts ih =>
    intro vs h j hj hj2
    simp only [zohList] at h
    cases hz : zohOne truth tg with
    | none => rw [hz] at h; simp at h
    | some v =>
      rw [hz] at h
      cases hzs : zohList truth ts with
      | none => rw [hzs] at h; simp at h
      | some vs0 =>
        rw [hzs] at h
        simp at h
        subst h
        cases j with
        | zero => simpa using hz
        | succ j =>
          exact ih vs0 hzs j (by simpa using hj) (by simpa using hj2)

theorem zohLabels_first (truth : List LabelSample) (ts ls : List ℚ)
    (h : zohLabels truth ts = some ls) (hne : ts ≠ []) :
    ∃ l0 lt, truth = l0 :: lt ∧ ls.head? = some l0.label := by
  cases ts with
  | nil => exact absurd rfl hne
  | cons tg rest =>
    cases truth with
    | nil => simp [zohLabels] at h
    | cons l0 lt =>
      simp only [zohLabels] at h
      cases hz : zohList (l0 :: lt) rest with
      | none => rw [hz] at h; simp at h
      | some vs =>
        rw [hz] at h
        simp at h
        exact ⟨l0, lt, rfl, by rw [← h]; rfl⟩

theorem zohLabels_get (truth : List LabelSample) (ts ls : List ℚ)
    (h : zohLabels truth ts = some ls) (j : ℕ) (hj : j < ts.length)
    (hj2 : j < ls.length) (hj1 : 1 ≤ j) :
    zohOne truth (ts.get ⟨j, hj⟩) = some (ls.get ⟨j, hj2⟩) := by
  cases ts with
  | nil => simp at hj
  | cons tg rest =>
    cases truth with
    | nil => simp [zohLabels] at h
    | cons l0 lt =>
      simp only [zohLabels] at h
      cases hz : zohList (l0 :: lt) rest with
      | none => rw [hz] at h; simp at h
      | some vs =>
        rw [hz] at h
        simp at h
        obtain ⟨j', rfl⟩ : ∃ j', j = j' + 1 := ⟨j - 1, by omega⟩
        subst h
        exact zohList_get (l0 :: lt) rest vs hz j' (by simpa using hj)
          (by simpa using hj2)

theorem zohOne_inv (truth : List LabelSample) (tg : ℚ) (v : ℚ)
    (h : zohOne truth tg = some v) :
    ∃ l ∈ truth, l.t < tg ∧ v = l.label ∧
      (List.Pairwise (fun x y : LabelSample => x.t ≤ y.t) truth →
        ∀ lw ∈ truth, lw.t < tg → lw.t ≤ l.t) := by
  unfold zohOne at h
  cases hg : (truth.filter fun l => l.t < tg).getLast? with
  | none => rw [hg] at h; simp at h
  | some l =>
    rw [hg] at h
    simp at h
    have hmem : l ∈ truth.filter fun l => l.t < tg := mem_of_getLast?_eq hg
    have hmem2 : l ∈ truth := List.mem_of_mem_filter hmem
    have hlt : l.t < tg := by simpa using List.of_mem_filter hmem
    refine ⟨l, hmem2, hlt, h.symm, ?_⟩
    intro hp lw hlw hlwt
    have hpf : List.Pairwise (fun x y : LabelSample => x.t ≤ y.t)
        (truth.filter fun l => l.t < tg) := hp.filter _
    have hlwf : lw ∈ truth.filter fun l => l.t < tg :=
      List.mem_filter.mpr ⟨hlw, by simpa using hlwt⟩
    exact pairwise_le_getLast _ hpf l hg lw hlwf

theorem zohList_of_bad (truth : List LabelSample) :
    ∀ ts : List ℚ, (∃ tg ∈ ts, (truth.filter fun l => l.t < tg) = []) →
      zohList truth ts = none := by
  intro ts
  induction ts with
  | nil => rintro ⟨tg, h, _⟩; simp at h
  | cons t0 ts ih =>
    rintro ⟨tg, htg, hfil⟩
    rcases List.mem_cons.mp htg with rfl | hmem
    · simp only [zohList, zohOne, hfil]
      rfl
    · simp only [zohList]
      cases hz : zohOne truth t0 with
      | none => rfl
      | some v => rw [ih ⟨tg, hmem, hfil⟩]; rfl

/-! ## Claim theorems: resampler -/

/-- C5 (amended): every output timestamp follows the `linspace` formula
`t[i] = t0 + i * (N/fs) / (N - 1)`: the grid is evenly spaced, but the
spacing is `(N/(N-1)) * (1/fs)` — only approximately, not exactly, `1/fs`. -/
theorem c5_grid_spacing (accel : List AccelSample) (truth : List LabelSample)
    (rows : List Row) (h : stimuli accel truth = some rows)
    (i : ℕ) (hi : i < rows.length) :
    (rows.get ⟨i, hi⟩).t
      = t0Of (trimAccel accel)
        + (i : ℚ) * ((((nOf (trimAccel accel)).toNat : ℚ) / (fs : ℚ))
            / (((nOf (trimAccel accel)).toNat : ℚ) - 1)) := by
  obtain ⟨hne, hpos, labels, hz, hrows⟩ := stimuli_inv accel truth rows h
  have hg : (gridOf (trimAccel accel)).length = (nOf (trimAccel accel)).toNat := by
    simp [gridOf, linspace_length]
  have hla : labels.length = (gridOf (trimAccel accel)).length :=
    zohLabels_length _ _ _ hz
  have hrl : rows.length = (gridOf (trimAccel accel)).length := by
    rw [hrows, mkRows_length, hla]
    simp
  subst hrows
  have hti : i < (gridOf (trimAccel accel)).length := by omega
  have hla2 : i < labels.length := by omega
  rw [mkRows_get_t _ _ _ i hi hti hla2]
  show (gridOf (trimAccel accel)).get ⟨i, hti⟩ = _
  unfold gridOf
  rw [linspace_get]
  ring

/-- C5 witness: the amended formula evaluated on the concrete input
`accelA`/`truthA` at grid index 1. -/
theorem c5_grid_spacing_witness :
    stimuli accelA truthA = some rowsA ∧
    (⟨1/5, 0, 0, 0, 3⟩ : Row).t
      = t0Of (trimAccel accelA)
        + ((1 : ℕ) : ℚ) * ((((nOf (trimAccel accelA)).toNat : ℚ) / (fs : ℚ))
            / (((nOf (trimAccel accelA)).toNat : ℚ) - 1)) :=
  ⟨by with_unfolding_all decide,
   c5_grid_spacing accelA truthA rowsA (by with_unfolding_all decide) 1
     (by with_unfolding_all decide)⟩

/-- C5 counterexample: on a valid input with `N = 2` the second output
timestamp is `t0 + 1/5`, not `t0 + 1/fs = t0 + 1/10`: the claimed invariant
`t[i] = t[0] + i/fs` fails on the code. -/
theorem c5_counterexample :
    stimuli accelA truthA = some rowsA ∧
    t0Of (trimAccel accelA) = 0 ∧
    (rowsA.getD 1 ⟨0, 0, 0, 0, 0⟩).t = 1/5 ∧
    (1/5 : ℚ) ≠ 0 + 1 * ((1 : ℚ) / (fs : ℚ)) := by
  refine ⟨?_, ?_, ?_, ?_⟩ <;> with_unfolding_all decide

/-- C6 (amended): whenever the resampler returns output at all, that output
has exactly `N = floor((t_last - t0) * fs)` rows (each row a complete
5-field record by construction). -/
theorem c6_row_count (accel : List AccelSample) (truth : List LabelSample)
    (rows : List Row) (h : stimuli accel truth = some rows) :
    rows.length = (nOf (trimAccel accel)).toNat := by
  obtain ⟨hne, hpos, labels, hz, hrows⟩ := stimuli_inv accel truth rows h
  have hg : (gridOf (trimAccel accel)).length = (nOf (trimAccel accel)).toNat := by
    simp [gridOf, linspace_length]
  have hla : labels.length = (gridOf (trimAccel accel)).length :=
    zohLabels_length _ _ _ hz
  rw [hrows, mkRows_length, hla, hg]
  simp

/-- C6 witness: on `accelA`/`truthA` the resampler succeeds and emits
`N = floor(0.2 * 10) = 2` rows. -/
theorem c6_row_count_witness :
    stimuli accelA truthA = some rowsA ∧
    rowsA.length = (nOf (trimAccel accelA)).toNat :=
  ⟨by with_unfolding_all decide,
   c6_row_count accelA truthA rowsA (by with_unfolding_all decide)⟩

/-- C6 counterexample: `accelB` is nonempty after the trim, yet `N = 0` and
the resampler fails (the source raises an `IndexError` storing into the
empty `truth_interp`) instead of producing the zero-row output the claim,
read over every trimmed-nonempty stream, requires. -/
theorem c6_counterexample :
    trimAccel accelB ≠ [] ∧ nOf (trimAccel accelB) = 0 ∧
    stimuli accelB truthB = none := by
  refine ⟨?_, ?_, ?_⟩ <;> with_unfolding_all decide

/-- C7: resampled labels are zero-order hold: the first output row carries the
first label sample's label unconditionally; every later row `i` carries the
label of some input label strictly earlier than the row's timestamp — the
most recent such one whenever the label stream is sorted — and every output
label is some actual input label. -/
theorem c7_zoh_labels (accel : List AccelSample) (truth : List LabelSample)
    (rows : List Row) (h : stimuli accel truth = some rows) :
    (∀ r0, rows.head? = some r0 → ∃ l0 lt, truth = l0 :: lt ∧ r0.label = l0.label) ∧
    (∀ i (hi : i < rows.length), 1 ≤ i →
      ∃ l ∈ truth, l.t < (rows.get ⟨i, hi⟩).t ∧ (rows.get ⟨i, hi⟩).label = l.label ∧
        (List.Pairwise (fun x y : LabelSample => x.t ≤ y.t) truth →
          ∀ lw ∈ truth, lw.t < (rows.get ⟨i, hi⟩).t → lw.t ≤ l.t)) ∧
    (∀ r ∈ rows, r.label ∈ truth.map LabelSample.label) := by
  obtain ⟨hne, hpos, labels, hz, hrows⟩ := stimuli_inv accel truth rows h
  have hg : (gridOf (trimAccel accel)).length = (nOf (trimAccel accel)).toNat := by
    simp [gridOf, linspace_length]
  have hla : labels.length = (gridOf (trimAccel accel)).length :=
    zohLabels_length _ _ _ hz
  have hrl : rows.length = (gridOf (trimAccel accel)).length := by
    rw [hrows, mkRows_length, hla]
    simp
  have hfirst : ∀ (h0 : 0 < rows.length),
      ∃ l0 lt, truth = l0 :: lt ∧ (rows.get ⟨0, h0⟩).label = l0.label := by
    intro h0
    have hgne : gridOf (trimAccel accel) ≠ [] := by
      intro hE
      have hg2 := hg
      rw [hE] at hg2
      simp at hg2
      omega
    obtain ⟨l0, lt, htr, hhead⟩ := zohLabels_first truth _ labels hz hgne
    refine ⟨l0, lt, htr, ?_⟩
    have hla0 : 0 < labels.length := by omega
    have hlv : labels.get ⟨0, hla0⟩ = l0.label := by
      cases labels with
      | nil => simp at hla0
      | cons lv lvs => simpa using hhead
    subst hrows
    rw [mkRows_get_label _ _ _ 0 h0 (by omega) hla0, hlv]
  have hlater : ∀ i (hi : i < rows.length), 1 ≤ i →
      ∃ l ∈ truth, l.t < (rows.get ⟨i, hi⟩).t ∧ (rows.get ⟨i, hi⟩).label = l.label ∧
        (List.Pairwise (fun x y : LabelSample => x.t ≤ y.t) truth →
          ∀ lw ∈ truth, lw.t < (rows.get ⟨i, hi⟩).t → lw.t ≤ l.t) := by
    intro i hi h1
    have hti : i < (gridOf (trimAccel accel)).length := by omega
    have hla2 : i < labels.length := by omega
    have hzo := zohLabels_get truth _ labels hz i hti hla2 h1
    obtain ⟨l, hlmem, hlt, hveq, hrec⟩ := zohOne_inv truth _ _ hzo
    have ht : (rows.get ⟨i, hi⟩).t = (gridOf (trimAccel accel)).get ⟨i, hti⟩ := by
      subst hrows
      exact mkRows_get_t _ _ _ i hi hti hla2
    have hlab : (rows.get ⟨i, hi⟩).label = labels.get ⟨i, hla2⟩ := by
      subst hrows
      exact mkRows_get_label _ _ _ i hi hti hla2
    refine ⟨l, hlmem, ?_, ?_, ?_⟩
    · rw [ht]; exact hlt
    · rw [hlab, ← hveq]
    · intro hp lw hlw hlwt
      exact hrec hp lw hlw (by rw [ht] at hlwt; exact hlwt)
  refine ⟨?_, hlater, ?_⟩
  · intro r0 hr0
    have h0 : 0 < rows.length := by
      cases rows with
      | nil => simp at hr0
      | cons r rs => simp
    obtain ⟨l0, lt, htr, hlab⟩ := hfirst h0
    refine ⟨l0, lt, htr, ?_⟩
    have : r0 = rows.get ⟨0, h0⟩ := by
      cases rows with
      | nil => simp at hr0
      | cons r rs => simpa using hr0.symm
    rw [this, hlab]
  · intro r hr
    obtain ⟨⟨i, hi⟩, hget⟩ := List.mem_iff_get.mp hr
    rcases Nat.eq_zero_or_pos i with rfl | h1
    · obtain ⟨l0, lt, htr, hlab⟩ := hfirst hi
      rw [← hget, hlab, htr]
      simp
    · obtain ⟨l, hlmem, _, hlab, _⟩ := hlater i hi h1
      rw [← hget, hlab]
      exact List.mem_map_of_mem LabelSample.label hlmem

/-- C7 witness: on `accelA`/`truthA`, output row 1 carries the label of the
single input label, which lies strictly before the row's timestamp. -/
theorem c7_zoh_labels_witness :
    stimuli accelA truthA = some rowsA ∧
    ∃ l ∈ truthA, l.t < (⟨1/5, 0, 0, 0, 3⟩ : Row).t ∧
      (⟨1/5, 0, 0, 0, 3⟩ : Row).label = l.label ∧
      (List.Pairwise (fun x y : LabelSample => x.t ≤ y.t) truthA →
        ∀ lw ∈ truthA, lw.t < (⟨1/5, 0, 0, 0, 3⟩ : Row).t → lw.t ≤ l.t) :=
  ⟨by with_unfolding_all decide,
   (c7_zoh_labels accelA truthA rowsA (by with_unfolding_all decide)).2.1 1
     (by with_unfolding_all decide) (by decide)⟩

/-- C8 (amended): the resampler fails — returns `none`, modelling the
source's uncaught indexing errors — whenever the trimmed accelerometer
stream is empty, or `N <= 0`, or the label stream is empty, or some grid
point after the first has no label strictly before it. (Having no label at
or before the first grid timestamp, the claim's third condition, does not by
itself force a failure; see the counterexample.) -/
theorem c8_failure_conditions (accel : List AccelSample) (truth : List LabelSample)
    (h : trimAccel accel = [] ∨ nOf (trimAccel accel) ≤ 0 ∨ truth = [] ∨
      ∃ tg ∈ (gridOf (trimAccel accel)).tail,
        (truth.filter fun l => l.t < tg) = []) :
    stimuli accel truth = none := by
  unfold stimuli
  by_cases h1 : trimAccel accel = []
  · rw [if_pos h1]
  · rw [if_neg h1]
    by_cases h2 : nOf (trimAccel accel) ≤ 0
    · rw [if_pos h2]
    · rw [if_neg h2]
      rcases h with h | h | h | h
      · exact absurd h h1
      · exact absurd h h2
      · subst h
        have hgne : gridOf (trimAccel accel) ≠ [] := by
          have hg : (gridOf (trimAccel accel)).length = (nOf (trimAccel accel)).toNat := by
            simp [gridOf, linspace_length]
          intro hE
          rw [hE] at hg
          simp at hg
          omega
        obtain ⟨g0, gs, hgs⟩ := List.exists_cons_of_ne_nil hgne
        rw [hgs]
        rfl
      · obtain ⟨tg, htg, hfil⟩ := h
        cases hgs : gridOf (trimAccel accel) with
        | nil => rw [hgs] at htg; simp at htg
        | cons g0 gs =>
          rw [hgs] at htg
          simp only [List.tail_cons] at htg
          cases truth with
          | nil => rfl
          | cons l0 lt =>
            have hzn : zohList (l0 :: lt) gs = none :=
              zohList_of_bad _ gs ⟨tg, htg, hfil⟩
            simp only [zohLabels, hzn]
            rfl

/-- C8 witness: a stream that is empty after the `t >= 0` trim makes the
resampler fail. -/
theorem c8_failure_conditions_witness :
    (trimAccel [(⟨-1, 0, 0, 0⟩ : AccelSample)] = [] ∨
      nOf (trimAccel [(⟨-1, 0, 0, 0⟩ : AccelSample)]) ≤ 0 ∨
      ([] : List LabelSample) = [] ∨
      ∃ tg ∈ (gridOf (trimAccel [(⟨-1, 0, 0, 0⟩ : AccelSample)])).tail,
        (([] : List LabelSample).filter fun l => l.t < tg) = []) ∧
    stimuli [⟨-1, 0, 0, 0⟩] [] = none :=
  ⟨Or.inl (by with_unfolding_all decide),
   c8_failure_conditions _ _ (Or.inl (by with_unfolding_all decide))⟩

/-- C8 counterexample: no label of `truthA` lies at or before the first grid
timestamp (`t0 = 0`), yet the resampler succeeds — the claim's third failure
condition does not hold of the code. -/
theorem c8_counterexample :
    (gridOf (trimAccel accelA)).head? = some (t0Of (trimAccel accelA)) ∧
    (∀ l ∈ truthA, ¬ l.t ≤ t0Of (trimAccel accelA)) ∧
    stimuli accelA truthA ≠ none := by
  refine ⟨?_, ?_, ?_⟩ <;> with_unfolding_all decide

end VanHees
